import Mathlib

/-!
Shallow embedding of the BTC-staking voting-power keeper
(`x/btcstaking/keeper`, voting-power table logic): the height-partitioned
voting-power store, the per-block tally `RecordVotingPowerTable`, the
lookups `GetVotingPower`, `HasVotingPowerTable`, `GetVotingPowerTable`,
and the activation queries `GetBTCStakingActivatedHeight` and
`IsBTCStakingActivated`.

The raw key-value section that sits under the `VotingPowerKey` store
prefix is modelled as an association list of (key bytes, value bytes)
pairs kept in strictly increasing lexicographic byte order, matching the
iteration order of the underlying ordered KV store.  A full key in this
section is the 8-byte big-endian block height followed by the validator's
BIP340 public key bytes; the value is the 8-byte big-endian voting power.
-/

/-- A byte string: a list of byte values. -/
abbrev Bytes := List Nat

/-- A validator's BIP340 public key, as raw bytes. -/
abbrev ValidatorKey := Bytes

/-- The raw voting-power section of the KV store: (key bytes, value bytes)
pairs, in strictly increasing lexicographic key order. -/
abbrev Store := List (Bytes × Bytes)

/-- Lexicographic strict order on byte strings, as used by the ordered KV
store's iterator (Go `bytes.Compare`): a strict prefix sorts first. -/
def lexLt : Bytes → Bytes → Bool
  | [], [] => false
  | [], _ :: _ => true
  | _ :: _, [] => false
  | a :: as, b :: bs => if a < b then true else if b < a then false else lexLt as bs

/-- Ordered insertion/overwrite into the raw store (a KV `Set`): keeps the
association list in ascending key order and replaces an existing key. -/
def kvSet : Store → Bytes → Bytes → Store
  | [], key, v => [(key, v)]
  | (k', v') :: rest, key, v =>
    if lexLt key k' then (key, v) :: (k', v') :: rest
    else if key = k' then (key, v) :: rest
    else (k', v') :: kvSet rest key v

/-- Raw store lookup (a KV `Get`): `none` when the key is absent
(Go returns a nil byte slice). -/
def kvGet : Store → Bytes → Option Bytes
  | [], _ => none
  | (k', v') :: rest, key => if key = k' then some v' else kvGet rest key

/-- `sdk.Uint64ToBigEndian`: the 8-byte big-endian encoding of a 64-bit
value (a wider `Nat` is encoded modulo `2 ^ 64`). -/
def uint64ToBigEndian (n : Nat) : Bytes :=
  [n / 256 ^ 7 % 256, n / 256 ^ 6 % 256, n / 256 ^ 5 % 256, n / 256 ^ 4 % 256,
   n / 256 ^ 3 % 256, n / 256 ^ 2 % 256, n / 256 % 256, n % 256]

/-- `sdk.BigEndianToUint64`: 0 on the empty byte string, otherwise the
big-endian value of the first 8 bytes (Go's `binary.BigEndian.Uint64`
reads exactly `bz[0:8]`; every byte string this code decodes has length 0
or at least 8). -/
def bigEndianToUint64 (bz : Bytes) : Nat :=
  if bz = [] then 0 else (bz.take 8).foldl (fun acc b => acc * 256 + b) 0

/-- The sub-store of entries under a height's partition, i.e. the entries
of the prefix store `votingPowerStore(ctx, height)`: all raw entries whose
key starts with the 8-byte big-endian height, with that segment stripped,
in the same (iterator) order. -/
def heightEntries (s : Store) (height : Nat) : Store :=
  s.filterMap (fun kv =>
    if kv.1.take 8 = uint64ToBigEndian height then some (kv.1.drop 8, kv.2) else none)

/-- The keeper state visible to the voting-power table logic:
`validators` is the BTC validator registry (`btcValidatorStore`, iterated
in key order; the Bool is the validator's slashed flag), `delegators` the
per-validator delegator index (`btcDelegatorStore` iteration),
`delPower` the collaborator scoring of one delegator's delegation bundle
(`BTCDelegations.VotingPower` at the current finalization window and
covenant quorum, abstracted as a function of the BTC tip height and the
two keys), `maxActiveBtcValidators` the cap parameter, and `votingPower`
the raw voting-power store section. -/
structure Keeper where
  validators : List (ValidatorKey × Bool)
  delegators : ValidatorKey → List ValidatorKey
  delPower : Nat → ValidatorKey → ValidatorKey → Nat
  maxActiveBtcValidators : Nat
  votingPower : Store

/-- `types.BTCValidatorWithMeta`, restricted to the fields the tally sets
("other fields do not matter"). -/
structure BTCValidatorWithMeta where
  btcPk : ValidatorKey
  votingPower : Nat
deriving DecidableEq

/-- `Keeper.HasBTCValidator`: whether the key has a row in the current
BTC validator registry. -/
def HasBTCValidator (k : Keeper) (valBTCPK : ValidatorKey) : Bool :=
  k.validators.any (fun v => v.1 == valBTCPK)

/-- `BTCValidator.IsSlashed` read through the registry: the slashed flag
of the validator row stored under `pk` (false when absent). -/
def IsSlashed (k : Keeper) (pk : ValidatorKey) : Bool :=
  match k.validators.find? (fun v => v.1 == pk) with
  | some v => v.2
  | none => false

/-- `Keeper.SetVotingPower`: store the 8-byte big-endian power under the
key (8-byte big-endian height ++ validator key). -/
def SetVotingPower (k : Keeper) (valBTCPK : ValidatorKey) (height power : Nat) : Keeper :=
  { k with votingPower :=
      kvSet k.votingPower (uint64ToBigEndian height ++ valBTCPK) (uint64ToBigEndian power) }

/-- `Keeper.GetVotingPower`: 0 when the key has no registry row; otherwise
look the entry up in the height's partition, 0 when absent (nil/empty
bytes), else the decoded stored power. -/
def GetVotingPower (k : Keeper) (valBTCPK : ValidatorKey) (height : Nat) : Nat :=
  if HasBTCValidator k valBTCPK then
    match kvGet k.votingPower (uint64ToBigEndian height ++ valBTCPK) with
    | none => 0
    | some powerBytes => if powerBytes = [] then 0 else bigEndianToUint64 powerBytes
  else 0

/-- `Keeper.HasVotingPowerTable`: whether the height's partition has at
least one entry (the prefix iterator is valid). -/
def HasVotingPowerTable (k : Keeper) (height : Nat) : Bool :=
  !(heightEntries k.votingPower height).isEmpty

/-- `Keeper.GetVotingPowerTable`: `none` when the height's partition is
empty (Go returns nil), otherwise the full validator-key-to-power mapping
of the partition.  Go keys the map by the hex marshalling of the BIP340
key, an injective encoding; the model keys it by the raw key bytes. -/
def GetVotingPowerTable (k : Keeper) (height : Nat) : Option (List (ValidatorKey × Nat)) :=
  let entries := heightEntries k.votingPower height
  if entries = [] then none
  else some (entries.map (fun e => (e.1, bigEndianToUint64 e.2)))

/-- `Keeper.GetBTCStakingActivatedHeight`: decode the first raw key of the
whole voting-power section (Go: `sdk.BigEndianToUint64(iter.Key())` on the
first key of the `VotingPowerKey`-prefixed store); `none` models the
`types.ErrBTCStakingNotActivated` error when the section is empty. -/
def GetBTCStakingActivatedHeight (k : Keeper) : Option Nat :=
  match k.votingPower with
  | [] => none
  | (key, _) :: _ => some (bigEndianToUint64 key)

/-- `Keeper.IsBTCStakingActivated`: whether the voting-power section has
any entry at all (the section-wide iterator is valid). -/
def IsBTCStakingActivated (k : Keeper) : Bool :=
  !k.votingPower.isEmpty

/-- Modelled from the spec: `types.FilterTopNBTCValidators` (its source is
outside this slice) — order comparison for the top-N selection: higher
voting power first, ties broken by ascending validator key. -/
def valBefore (a b : BTCValidatorWithMeta) : Bool :=
  if b.votingPower < a.votingPower then true
  else if a.votingPower < b.votingPower then false
  else lexLt a.btcPk b.btcPk

/-- Ordered insertion for the top-N selection's deterministic sort. -/
def insertVal (a : BTCValidatorWithMeta) :
    List BTCValidatorWithMeta → List BTCValidatorWithMeta
  | [] => [a]
  | b :: rest => if valBefore a b then a :: b :: rest else b :: insertVal a rest

/-- Insertion sort by `valBefore`. -/
def sortVals : List BTCValidatorWithMeta → List BTCValidatorWithMeta
  | [] => []
  | a :: rest => insertVal a (sortVals rest)

/-- Modelled from the spec: `types.FilterTopNBTCValidators` keeps the top
`n` candidates by voting power, deterministically ordered with ties broken
by ascending validator key. -/
def FilterTopNBTCValidators (vals : List BTCValidatorWithMeta) (n : Nat) :
    List BTCValidatorWithMeta :=
  (sortVals vals).take n

/-- The `valPower` accumulation of `RecordVotingPowerTable` for one
validator: iterate the delegators under the validator and add each
delegation bundle's voting power, with `uint64` wraparound on each
addition (Go `valPower += ...` on a `uint64`). -/
def valPowerOf (k : Keeper) (btcTipHeight : Nat) (pk : ValidatorKey) : Nat :=
  (k.delegators pk).foldl (fun acc d => (acc + k.delPower btcTipHeight pk d) % 2 ^ 64) 0

/-- The `activeBTCVals` candidate list of `RecordVotingPowerTable`: all
registry validators in iteration order, skipping slashed ones and ones
with zero accumulated power. -/
def activeBTCValsOf (k : Keeper) (btcTipHeight : Nat) : List BTCValidatorWithMeta :=
  k.validators.filterMap (fun v =>
    if v.2 then none
    else if 0 < valPowerOf k btcTipHeight v.1 then
      some ⟨v.1, valPowerOf k btcTipHeight v.1⟩
    else none)

/-- `Keeper.RecordVotingPowerTable` at Babylon height `babylonTipHeight`:
`btcTip` is the fallible `GetCurrentBTCHeight` result (`none` = lookup
error, and the tally returns immediately).  Otherwise compute the active
candidates, return unchanged when there are none, else write the top-N
selection's powers into the height's partition. -/
def RecordVotingPowerTable (k : Keeper) (babylonTipHeight : Nat) (btcTip : Option Nat) :
    Keeper :=
  match btcTip with
  | none => k
  | some tip =>
    let active := activeBTCValsOf k tip
    if active.isEmpty then k
    else
      (FilterTopNBTCValidators active k.maxActiveBtcValidators).foldl
        (fun st v => SetVotingPower st v.btcPk babylonTipHeight v.votingPower) k

/-- The write loop at the end of `RecordVotingPowerTable`, as a named
function: one `SetVotingPower` per selected validator, at one height. -/
def writeAll (k : Keeper) (l : List BTCValidatorWithMeta) (height : Nat) : Keeper :=
  l.foldl (fun st v => SetVotingPower st v.btcPk height v.votingPower) k

/-- The big-endian base-256 digit list of the low `j` bytes of a value;
`uint64ToBigEndian` is `beDigits 8`. -/
def beDigits : Nat → Nat → Bytes
  | 0, _ => []
  | j + 1, n => n / 256 ^ j % 256 :: beDigits j n

/-- Strictly-ascending key order of a raw store: the invariant the ordered
KV store maintains, and the order its iterator observes. -/
def SortedStore (s : Store) : Prop :=
  List.Pairwise (fun a b : Bytes × Bytes => lexLt a.1 b.1 = true) s

/-- Well-formed voting-power section: sorted, and every raw key is an
8-byte big-endian height followed by a validator key. -/
def WFStore (s : Store) : Prop :=
  SortedStore s ∧
    ∀ kv ∈ s, ∃ h pk, h < 2 ^ 64 ∧ kv.1 = uint64ToBigEndian h ++ pk

/-- A sample keeper state: one live validator `[1]` with one delegator,
one slashed validator `[2]`, an empty voting-power section. -/
def sampleKeeper : Keeper :=
  { validators := [([1], false), ([2], true)]
  , delegators := fun _ => [[9]]
  , delPower := fun _ _ _ => 100
  , maxActiveBtcValidators := 2
  , votingPower := [] }

/-- A keeper state whose registry holds a slashed validator `[1]` that
still has a stored voting-power entry (power 7) at height 5. -/
def slashedKeeper : Keeper :=
  { validators := [([1], true)]
  , delegators := fun _ => []
  , delPower := fun _ _ _ => 0
  , maxActiveBtcValidators := 10
  , votingPower := [(uint64ToBigEndian 5 ++ [1], uint64ToBigEndian 7)] }

/-- A keeper state with one live validator whose delegations all score
zero. -/
def zeroKeeper : Keeper :=
  { validators := [([1], false)]
  , delegators := fun _ => [[9]]
  , delPower := fun _ _ _ => 0
  , maxActiveBtcValidators := 2
  , votingPower := [] }

/-- A keeper state whose voting-power section holds entries at heights 5
and 6, in ascending raw-key order. -/
def activatedKeeper : Keeper :=
  { validators := []
  , delegators := fun _ => []
  , delPower := fun _ _ _ => 0
  , maxActiveBtcValidators := 0
  , votingPower := [(uint64ToBigEndian 5 ++ [1], uint64ToBigEndian 7),
                    (uint64ToBigEndian 6 ++ [2], uint64ToBigEndian 8)] }

/-! ### Byte-encoding lemmas -/

theorem take_eight_enc_append (h : Nat) (rest : Bytes) :
    (uint64ToBigEndian h ++ rest).take 8 = uint64ToBigEndian h := by
  simp [uint64ToBigEndian]

theorem drop_eight_enc_append (h : Nat) (rest : Bytes) :
    (uint64ToBigEndian h ++ rest).drop 8 = rest := by
  simp [uint64ToBigEndian]

theorem decode_enc_append (h : Nat) (rest : Bytes) :
    bigEndianToUint64 (uint64ToBigEndian h ++ rest) = h % 2 ^ 64 := by
  rw [bigEndianToUint64, if_neg (by simp [uint64ToBigEndian]), take_eight_enc_append]
  simp only [uint64ToBigEndian, List.foldl]
  omega

theorem decode_enc (h : Nat) : bigEndianToUint64 (uint64ToBigEndian h) = h % 2 ^ 64 := by
  have := decode_enc_append h []
  simpa using this

theorem enc_eq_iff {a b : Nat} :
    uint64ToBigEndian a = uint64ToBigEndian b ↔ a % 2 ^ 64 = b % 2 ^ 64 := by
  simp only [uint64ToBigEndian, List.cons.injEq, and_true]
  constructor
  · intro h
    omega
  · intro h
    omega

/-! ### Lexicographic-order lemmas -/

theorem lexLt_irrefl (l : Bytes) : lexLt l l = false := by
  induction l with
  | nil => rfl
  | cons a as ih => simp [lexLt, ih]

theorem lexLt_trans {a : Bytes} : ∀ {b c : Bytes}, lexLt a b = true → lexLt b c = true →
    lexLt a c = true := by
  induction a with
  | nil =>
    intro b c hab hbc
    cases b with
    | nil => simp [lexLt] at hab
    | cons y ys =>
      cases c with
      | nil => simp [lexLt] at hbc
      | cons z zs => rfl
  | cons x xs ih =>
    intro b c hab hbc
    cases b with
    | nil => simp [lexLt] at hab
    | cons y ys =>
      cases c with
      | nil => simp [lexLt] at hbc
      | cons z zs =>
        simp only [lexLt] at hab hbc ⊢
        split_ifs at hab hbc ⊢ <;>
          first
            | rfl
            | omega
            | exact ih hab hbc

theorem lexLt_total {a : Bytes} : ∀ {b : Bytes}, lexLt a b = false → lexLt b a = false →
    a = b := by
  induction a with
  | nil =>
    intro b h1 _
    cases b with
    | nil => rfl
    | cons y ys => simp [lexLt] at h1
  | cons x xs ih =>
    intro b h1 h2
    cases b with
    | nil => simp [lexLt] at h2
    | cons y ys =>
      simp only [lexLt] at h1 h2
      by_cases hxy : x < y
      · rw [if_pos hxy] at h1
        simp at h1
      · rw [if_neg hxy] at h1
        by_cases hyx : y < x
        · rw [if_pos hyx] at h2
          simp at h2
        · rw [if_neg hyx] at h1
          rw [if_neg hyx, if_neg hxy] at h2
          have hxy' : x = y := by omega
          rw [hxy', ih h1 h2]

theorem lexLt_append {p : Bytes} : ∀ {q : Bytes}, p.length = q.length →
    lexLt p q = true → ∀ x y, lexLt (p ++ x) (q ++ y) = true := by
  induction p with
  | nil =>
    intro q hlen hpq x y
    cases q with
    | nil => simp [lexLt] at hpq
    | cons b bs => simp at hlen
  | cons a as ih =>
    intro q hlen hpq x y
    cases q with
    | nil => simp at hlen
    | cons b bs =>
      simp only [List.length_cons] at hlen
      simp only [List.cons_append, lexLt] at hpq ⊢
      by_cases hab : a < b
      · simp [hab]
      · rw [if_neg hab] at hpq ⊢
        by_cases hba : b < a
        · rw [if_pos hba] at hpq
          simp at hpq
        · rw [if_neg hba] at hpq ⊢
          exact ih (by omega) hpq x y

theorem lexLt_cons (a b : Nat) (as bs : Bytes) :
    lexLt (a :: as) (b :: bs) = true ↔ a < b ∨ (a = b ∧ lexLt as bs = true) := by
  simp only [lexLt]
  by_cases h1 : a < b
  · simp [h1]
  · rw [if_neg h1]
    by_cases h2 : b < a
    · rw [if_pos h2]
      constructor
      · intro hf
        simp at hf
      · rintro (hab | ⟨hab, _⟩) <;> omega
    · rw [if_neg h2]
      have hab : a = b := by omega
      simp [hab, h1]

theorem uint64ToBigEndian_eq_beDigits (n : Nat) : uint64ToBigEndian n = beDigits 8 n := by
  simp [uint64ToBigEndian, beDigits]

theorem lexLt_beDigits_of_lt : ∀ (j : Nat) {a b : Nat}, a % 256 ^ j < b % 256 ^ j →
    lexLt (beDigits j a) (beDigits j b) = true := by
  intro j
  induction j with
  | zero =>
    intro a b h
    simp only [pow_zero] at h
    omega
  | succ j ih =>
    intro a b h
    rw [pow_succ, Nat.mod_mul, Nat.mod_mul] at h
    simp only [beDigits]
    rw [lexLt_cons]
    have hra : a % 256 ^ j < 256 ^ j := Nat.mod_lt _ (by positivity)
    have hrb : b % 256 ^ j < 256 ^ j := Nat.mod_lt _ (by positivity)
    rcases lt_trichotomy (a / 256 ^ j % 256) (b / 256 ^ j % 256) with hd | hd | hd
    · exact Or.inl hd
    · right
      refine ⟨hd, ih ?_⟩
      rw [hd] at h
      omega
    · exfalso
      have hstep : 256 ^ j * (b / 256 ^ j % 256 + 1) ≤ 256 ^ j * (a / 256 ^ j % 256) :=
        Nat.mul_le_mul (le_refl _) (by omega)
      have hexp : 256 ^ j * (b / 256 ^ j % 256 + 1) =
          256 ^ j * (b / 256 ^ j % 256) + 256 ^ j := by ring
      omega

theorem lexLt_enc_of_lt {a b : Nat} (hab : a % 2 ^ 64 < b % 2 ^ 64) :
    lexLt (uint64ToBigEndian a) (uint64ToBigEndian b) = true := by
  rw [uint64ToBigEndian_eq_beDigits, uint64ToBigEndian_eq_beDigits]
  refine lexLt_beDigits_of_lt 8 ?_
  have h28 : (256 : Nat) ^ 8 = 2 ^ 64 := by norm_num
  rw [h28]
  exact hab

/-! ### Raw-store lemmas -/

theorem mem_kvSet {s : Store} {key v : Bytes} :
    ∀ {kv : Bytes × Bytes}, kv ∈ kvSet s key v → kv = (key, v) ∨ kv ∈ s := by
  induction s with
  | nil =>
    intro kv h
    simp [kvSet] at h
    left
    exact h
  | cons p rest ih =>
    obtain ⟨k', v'⟩ := p
    intro kv h
    simp only [kvSet] at h
    split_ifs at h with h1 h2
    · rcases List.mem_cons.mp h with rfl | h'
      · exact Or.inl rfl
      · exact Or.inr h'
    · rcases List.mem_cons.mp h with rfl | h'
      · exact Or.inl rfl
      · exact Or.inr (List.mem_cons_of_mem _ h')
    · rcases List.mem_cons.mp h with rfl | h'
      · exact Or.inr (List.mem_cons_self _ _)
      · rcases ih h' with h'' | h''
        · exact Or.inl h''
        · exact Or.inr (List.mem_cons_of_mem _ h'')

theorem kvGet_kvSet_self (s : Store) (key v : Bytes) :
    kvGet (kvSet s key v) key = some v := by
  induction s with
  | nil => simp [kvSet, kvGet]
  | cons p rest ih =>
    obtain ⟨k', v'⟩ := p
    simp only [kvSet]
    split_ifs with h1 h2
    · simp [kvGet]
    · simp [kvGet]
    · rw [kvGet, if_neg h2]
      exact ih

theorem kvGet_kvSet_ne {key key' : Bytes} (hne : key' ≠ key) (s : Store) (v : Bytes) :
    kvGet (kvSet s key v) key' = kvGet s key' := by
  induction s with
  | nil => simp [kvSet, kvGet, hne]
  | cons p rest ih =>
    obtain ⟨k', v'⟩ := p
    simp only [kvSet]
    split_ifs with h1 h2
    · rw [kvGet, if_neg hne]
    · subst h2
      rw [kvGet, if_neg hne, kvGet, if_neg hne]
    · rw [kvGet]
      by_cases h3 : key' = k'
      · rw [if_pos h3, kvGet, if_pos h3]
      · rw [if_neg h3, kvGet, if_neg h3]
        exact ih

theorem sortedStore_kvSet {s : Store} (hs : SortedStore s) (key v : Bytes) :
    SortedStore (kvSet s key v) := by
  induction s with
  | nil =>
    simp [kvSet, SortedStore]
  | cons p rest ih =>
    obtain ⟨k', v'⟩ := p
    rw [SortedStore, List.pairwise_cons] at hs
    obtain ⟨hhead, htail⟩ := hs
    simp only [kvSet]
    split_ifs with h1 h2
    · refine List.Pairwise.cons ?_ (List.Pairwise.cons hhead htail)
      intro b hb
      rcases List.mem_cons.mp hb with rfl | hb'
      · exact h1
      · exact lexLt_trans h1 (hhead b hb')
    · subst h2
      exact List.Pairwise.cons hhead htail
    · refine List.Pairwise.cons ?_ (ih htail)
      intro b hb
      rcases mem_kvSet hb with rfl | hb'
      · rcases Bool.eq_false_or_eq_true (lexLt k' key) with ht | hf
        · exact ht
        · exact absurd (lexLt_total hf (Bool.not_eq_true _ ▸ h1 : lexLt key k' = false))
            (fun he => h2 he.symm)
      · exact hhead b hb'

/-! ### Height-partition lemmas -/

theorem mem_heightEntries {s : Store} {h : Nat} {e : Bytes × Bytes} :
    e ∈ heightEntries s h ↔
      ∃ kv ∈ s, kv.1.take 8 = uint64ToBigEndian h ∧ e = (kv.1.drop 8, kv.2) := by
  rw [heightEntries, List.mem_filterMap]
  constructor
  · rintro ⟨kv, hmem, hf⟩
    by_cases hc : kv.1.take 8 = uint64ToBigEndian h
    · rw [if_pos hc] at hf
      exact ⟨kv, hmem, hc, (Option.some_inj.mp hf).symm⟩
    · rw [if_neg hc] at hf
      exact absurd hf (by simp)
  · rintro ⟨kv, hmem, hc, rfl⟩
    exact ⟨kv, hmem, by rw [if_pos hc]⟩

theorem heightEntries_cons (key v : Bytes) (t : Store) (h : Nat) :
    heightEntries ((key, v) :: t) h =
      if key.take 8 = uint64ToBigEndian h then (key.drop 8, v) :: heightEntries t h
      else heightEntries t h := by
  by_cases hc : key.take 8 = uint64ToBigEndian h
  · simp [heightEntries, hc]
  · simp [heightEntries, hc]

theorem heightEntries_kvSet_ne {key : Bytes} {h : Nat}
    (hne : key.take 8 ≠ uint64ToBigEndian h) (s : Store) (v : Bytes) :
    heightEntries (kvSet s key v) h = heightEntries s h := by
  induction s with
  | nil =>
    show heightEntries [(key, v)] h = heightEntries [] h
    rw [heightEntries_cons, if_neg hne]
  | cons p rest ih =>
    obtain ⟨k', v'⟩ := p
    simp only [kvSet]
    split_ifs with h1 h2
    · rw [heightEntries_cons, if_neg hne]
    · subst h2
      rw [heightEntries_cons, if_neg hne, heightEntries_cons, if_neg hne]
    · rw [heightEntries_cons, heightEntries_cons, ih]

theorem length_heightEntries_kvSet (s : Store) (key v : Bytes) (h : Nat) :
    (heightEntries (kvSet s key v) h).length ≤ (heightEntries s h).length + 1 := by
  induction s with
  | nil =>
    show (heightEntries [(key, v)] h).length ≤ (heightEntries [] h).length + 1
    rw [heightEntries_cons]
    split_ifs <;> simp [heightEntries]
  | cons p rest ih =>
    obtain ⟨k', v'⟩ := p
    simp only [kvSet]
    split_ifs with h1 h2
    · rw [heightEntries_cons, heightEntries_cons]
      split_ifs <;> (try simp only [List.length_cons]) <;> omega
    · subst h2
      rw [heightEntries_cons, heightEntries_cons]
      split_ifs <;> (try simp only [List.length_cons]) <;> omega
    · rw [heightEntries_cons, heightEntries_cons]
      split_ifs <;> (try simp only [List.length_cons]) <;> omega

theorem mem_heightEntries_kvSet {s : Store} {key v : Bytes} {h : Nat} {e : Bytes × Bytes}
    (he : e ∈ heightEntries (kvSet s key v) h) :
    e ∈ heightEntries s h ∨
      (key.take 8 = uint64ToBigEndian h ∧ e = (key.drop 8, v)) := by
  rcases mem_heightEntries.mp he with ⟨kv, hmem, hc, rfl⟩
  rcases mem_kvSet hmem with rfl | hmem'
  · exact Or.inr ⟨hc, rfl⟩
  · exact Or.inl (mem_heightEntries.mpr ⟨kv, hmem', hc, rfl⟩)

/-! ### Top-N selection and candidate lemmas -/

theorem mem_insertVal {a b : BTCValidatorWithMeta} :
    ∀ {l : List BTCValidatorWithMeta}, b ∈ insertVal a l → b = a ∨ b ∈ l := by
  intro l
  induction l with
  | nil =>
    intro h
    simp [insertVal] at h
    exact Or.inl h
  | cons c t ih =>
    intro h
    rw [insertVal] at h
    split_ifs at h
    · rcases List.mem_cons.mp h with rfl | h'
      · exact Or.inl rfl
      · exact Or.inr h'
    · rcases List.mem_cons.mp h with rfl | h'
      · exact Or.inr (List.mem_cons_self _ _)
      · rcases ih h' with h'' | h''
        · exact Or.inl h''
        · exact Or.inr (List.mem_cons_of_mem _ h'')

theorem mem_sortVals {b : BTCValidatorWithMeta} :
    ∀ {l : List BTCValidatorWithMeta}, b ∈ sortVals l → b ∈ l := by
  intro l
  induction l with
  | nil =>
    intro h
    simp [sortVals] at h
  | cons c t ih =>
    intro h
    rw [sortVals] at h
    rcases mem_insertVal h with rfl | h'
    · exact List.mem_cons_self _ _
    · exact List.mem_cons_of_mem _ (ih h')

theorem filterTopN_subset {vals : List BTCValidatorWithMeta} {n : Nat}
    {v : BTCValidatorWithMeta} (hv : v ∈ FilterTopNBTCValidators vals n) : v ∈ vals :=
  mem_sortVals (List.mem_of_mem_take hv)

theorem filterTopN_length (vals : List BTCValidatorWithMeta) (n : Nat) :
    (FilterTopNBTCValidators vals n).length ≤ n := by
  rw [FilterTopNBTCValidators]
  exact List.length_take_le n (sortVals vals)

theorem valPowerOf_lt (k : Keeper) (tip : Nat) (pk : ValidatorKey) :
    valPowerOf k tip pk < 2 ^ 64 := by
  rw [valPowerOf]
  have hgen : ∀ (l : List ValidatorKey) (acc : Nat), acc < 2 ^ 64 →
      l.foldl (fun acc d => (acc + k.delPower tip pk d) % 2 ^ 64) acc < 2 ^ 64 := by
    intro l
    induction l with
    | nil =>
      intro acc hacc
      exact hacc
    | cons d t ih =>
      intro acc _
      exact ih _ (Nat.mod_lt _ (by positivity))
  exact hgen _ 0 (by positivity)

theorem mem_activeBTCVals {k : Keeper} {tip : Nat} {v : BTCValidatorWithMeta}
    (hv : v ∈ activeBTCValsOf k tip) :
    0 < v.votingPower ∧ v.votingPower = valPowerOf k tip v.btcPk ∧
      ∃ row ∈ k.validators, row.1 = v.btcPk ∧ row.2 = false := by
  rw [activeBTCValsOf, List.mem_filterMap] at hv
  obtain ⟨row, hrow, hf⟩ := hv
  by_cases hs : row.2
  · rw [if_pos hs] at hf
    exact absurd hf (by simp)
  · rw [if_neg hs] at hf
    by_cases hp : 0 < valPowerOf k tip row.1
    · rw [if_pos hp] at hf
      obtain rfl := Option.some_inj.mp hf
      exact ⟨hp, rfl, ⟨row, hrow, rfl, by simpa using hs⟩⟩
    · rw [if_neg hp] at hf
      exact absurd hf (by simp)

/-! ### Write-loop lemmas -/

theorem recordVotingPowerTable_eq (k : Keeper) (H tip : Nat) :
    RecordVotingPowerTable k H (some tip) =
      if (activeBTCValsOf k tip).isEmpty then k
      else writeAll k
        (FilterTopNBTCValidators (activeBTCValsOf k tip) k.maxActiveBtcValidators) H := rfl

theorem mem_heightEntries_writeAll : ∀ (l : List BTCValidatorWithMeta) (k : Keeper)
    {H h : Nat} {e : Bytes × Bytes},
    e ∈ heightEntries (writeAll k l H).votingPower h →
    e ∈ heightEntries k.votingPower h ∨
      ∃ v ∈ l, e = (v.btcPk, uint64ToBigEndian v.votingPower) := by
  intro l
  induction l with
  | nil =>
    intro k H h e he
    exact Or.inl he
  | cons a t ih =>
    intro k H h e he
    rcases ih (SetVotingPower k a.btcPk H a.votingPower) he with h1 | ⟨v, hv, he'⟩
    · rcases mem_heightEntries_kvSet h1 with h2 | ⟨hc, he'⟩
      · exact Or.inl h2
      · refine Or.inr ⟨a, List.mem_cons_self _ _, ?_⟩
        rw [he', drop_eight_enc_append]
    · exact Or.inr ⟨v, List.mem_cons_of_mem _ hv, he'⟩

theorem length_heightEntries_writeAll : ∀ (l : List BTCValidatorWithMeta) (k : Keeper)
    (H h : Nat),
    (heightEntries (writeAll k l H).votingPower h).length ≤
      (heightEntries k.votingPower h).length + l.length := by
  intro l
  induction l with
  | nil =>
    intro k H h
    simp [writeAll]
  | cons a t ih =>
    intro k H h
    have h1 := ih (SetVotingPower k a.btcPk H a.votingPower) H h
    have h2 := length_heightEntries_kvSet k.votingPower
      (uint64ToBigEndian H ++ a.btcPk) (uint64ToBigEndian a.votingPower) h
    calc (heightEntries (writeAll k (a :: t) H).votingPower h).length
        = (heightEntries
            (writeAll (SetVotingPower k a.btcPk H a.votingPower) t H).votingPower h).length :=
          rfl
      _ ≤ (heightEntries (SetVotingPower k a.btcPk H a.votingPower).votingPower h).length +
            t.length := h1
      _ ≤ ((heightEntries k.votingPower h).length + 1) + t.length :=
          Nat.add_le_add_right h2 _
      _ ≤ (heightEntries k.votingPower h).length + (a :: t).length := by
          simp only [List.length_cons]
          omega

theorem heightEntries_writeAll_ne : ∀ (l : List BTCValidatorWithMeta) (k : Keeper)
    {H h : Nat}, uint64ToBigEndian H ≠ uint64ToBigEndian h →
    heightEntries (writeAll k l H).votingPower h = heightEntries k.votingPower h := by
  intro l
  induction l with
  | nil =>
    intro k H h _
    rfl
  | cons a t ih =>
    intro k H h hne
    calc heightEntries (writeAll k (a :: t) H).votingPower h
        = heightEntries (SetVotingPower k a.btcPk H a.votingPower).votingPower h :=
          ih _ hne
      _ = heightEntries k.votingPower h :=
          heightEntries_kvSet_ne (by rw [take_eight_enc_append]; exact hne) _ _

theorem kvGet_writeAll_not_written : ∀ (l : List BTCValidatorWithMeta) (k : Keeper)
    {H : Nat} {pk : ValidatorKey}, (∀ v ∈ l, v.btcPk ≠ pk) →
    kvGet (writeAll k l H).votingPower (uint64ToBigEndian H ++ pk) =
      kvGet k.votingPower (uint64ToBigEndian H ++ pk) := by
  intro l
  induction l with
  | nil =>
    intro k H pk _
    rfl
  | cons a t ih =>
    intro k H pk hnw
    calc kvGet (writeAll k (a :: t) H).votingPower (uint64ToBigEndian H ++ pk)
        = kvGet (SetVotingPower k a.btcPk H a.votingPower).votingPower
            (uint64ToBigEndian H ++ pk) :=
          ih _ (fun v hv => hnw v (List.mem_cons_of_mem _ hv))
      _ = kvGet k.votingPower (uint64ToBigEndian H ++ pk) :=
          kvGet_kvSet_ne
            (fun hcontra =>
              hnw a (List.mem_cons_self _ _) (List.append_cancel_left hcontra).symm) _ _

/-! ### Basic keeper-query lemmas -/

theorem hasVotingPowerTable_false_iff {k : Keeper} {h : Nat} :
    HasVotingPowerTable k h = false ↔ heightEntries k.votingPower h = [] := by
  rw [HasVotingPowerTable]
  cases hE : heightEntries k.votingPower h <;> simp [hE]

theorem hasVotingPowerTable_iff {k : Keeper} {h : Nat} :
    HasVotingPowerTable k h = true ↔
      ∃ kv ∈ k.votingPower, kv.1.take 8 = uint64ToBigEndian h := by
  constructor
  · intro hh
    have hne : heightEntries k.votingPower h ≠ [] := by
      intro hemp
      rw [hasVotingPowerTable_false_iff.mpr hemp] at hh
      exact absurd hh (by simp)
    rcases List.exists_mem_of_ne_nil _ hne with ⟨e, he⟩
    rcases mem_heightEntries.mp he with ⟨kv, hmem, hc, _⟩
    exact ⟨kv, hmem, hc⟩
  · rintro ⟨kv, hmem, hc⟩
    have hm : (kv.1.drop 8, kv.2) ∈ heightEntries k.votingPower h :=
      mem_heightEntries.mpr ⟨kv, hmem, hc, rfl⟩
    rw [HasVotingPowerTable]
    cases hE : heightEntries k.votingPower h with
    | nil =>
      rw [hE] at hm
      exact absurd hm (List.not_mem_nil _)
    | cons a t => simp

/-! ### Claim theorems -/

/-- C8: `GetVotingPower` returns zero both when the key is unknown to the
current validator registry (regardless of what is stored) and when the key
is known but no entry exists at (height, key); neither case raises an
error or is otherwise distinguished by the return value. -/
theorem getVotingPower_unknown_or_missing (k : Keeper) (pk : ValidatorKey) (height : Nat) :
    (HasBTCValidator k pk = false → GetVotingPower k pk height = 0) ∧
      (kvGet k.votingPower (uint64ToBigEndian height ++ pk) = none →
        GetVotingPower k pk height = 0) := by
  constructor
  · intro h
    simp [GetVotingPower, h]
  · intro hget
    by_cases hreg : HasBTCValidator k pk
    · simp [GetVotingPower, hreg, hget]
    · simp [GetVotingPower, hreg]

/-- Witness for C8 at a concrete input: key `[3]` has no registry row in
`sampleKeeper`, and its voting power reads as zero. -/
theorem getVotingPower_unknown_or_missing_witness :
    HasBTCValidator sampleKeeper [3] = false ∧ GetVotingPower sampleKeeper [3] 5 = 0 :=
  ⟨by decide, (getVotingPower_unknown_or_missing sampleKeeper [3] 5).1 (by decide)⟩

/-- C2 (counterexample): a validator that is marked slashed in the current
registry but still has a stored entry does NOT read as zero —
`GetVotingPower` checks only registry membership, not the slashed flag. -/
theorem getVotingPower_slashed_cex :
    IsSlashed slashedKeeper [1] = true ∧ GetVotingPower slashedKeeper [1] 5 ≠ 0 := by
  constructor
  · decide
  · decide

/-- C2 (amended): `GetVotingPower(key, H)` is 0 whenever the key is absent
from the current validator registry, and also whenever the key has no
entry in H's snapshot. -/
theorem getVotingPower_zero_cases (k : Keeper) (pk : ValidatorKey) (H : Nat)
    (h : HasBTCValidator k pk = false ∨
      kvGet k.votingPower (uint64ToBigEndian H ++ pk) = none) :
    GetVotingPower k pk H = 0 := by
  rcases h with h | h
  · exact (getVotingPower_unknown_or_missing k pk H).1 h
  · exact (getVotingPower_unknown_or_missing k pk H).2 h

/-- Witness for the amended C2 at a concrete input. -/
theorem getVotingPower_zero_cases_witness : GetVotingPower slashedKeeper [2] 5 = 0 :=
  getVotingPower_zero_cases slashedKeeper [2] 5 (Or.inl (by decide))

/-- C4: if every non-slashed validator's accumulated delegation score is
zero when the tally runs at height H, the tally writes nothing (the keeper
is unchanged) and `HasVotingPowerTable H` stays false. -/
theorem recordVotingPowerTable_empty_candidates (k : Keeper) (H tip : Nat)
    (hzero : ∀ v ∈ k.validators, v.2 = false → valPowerOf k tip v.1 = 0) :
    RecordVotingPowerTable k H (some tip) = k ∧
      (HasVotingPowerTable k H = false →
        HasVotingPowerTable (RecordVotingPowerTable k H (some tip)) H = false) := by
  have hactive : activeBTCValsOf k tip = [] := by
    rw [activeBTCValsOf, List.filterMap_eq_nil_iff]
    intro v hv
    by_cases hs : v.2
    · simp [hs]
    · have hz := hzero v hv (by simpa using hs)
      simp [hs, hz]
  have hrun : RecordVotingPowerTable k H (some tip) = k := by
    rw [recordVotingPowerTable_eq, hactive]
    simp
  exact ⟨hrun, fun hfalse => by rw [hrun]; exact hfalse⟩

/-- Witness for C4 at a concrete input: `zeroKeeper`, whose single live
validator scores zero. -/
theorem recordVotingPowerTable_empty_candidates_witness :
    RecordVotingPowerTable zeroKeeper 5 (some 7) = zeroKeeper ∧
      HasVotingPowerTable (RecordVotingPowerTable zeroKeeper 5 (some 7)) 5 = false := by
  have h := recordVotingPowerTable_empty_candidates zeroKeeper 5 7 (by decide)
  exact ⟨h.1, h.2 (by decide)⟩

/-- C5: if the BTC tip-height lookup fails at height H, the tally returns
with the keeper unchanged (no entry written, no failure propagated), and a
run at height H+1 proceeds exactly as it would have without H's failure. -/
theorem recordVotingPowerTable_tip_failure (k : Keeper) (H : Nat) :
    RecordVotingPowerTable k H none = k ∧
      (HasVotingPowerTable k H = false →
        HasVotingPowerTable (RecordVotingPowerTable k H none) H = false) ∧
      ∀ t, RecordVotingPowerTable (RecordVotingPowerTable k H none) (H + 1) t =
        RecordVotingPowerTable k (H + 1) t :=
  ⟨rfl, fun h => h, fun _ => rfl⟩

/-- Witness for C5 at a concrete input. -/
theorem recordVotingPowerTable_tip_failure_witness :
    HasVotingPowerTable (RecordVotingPowerTable sampleKeeper 5 none) 5 = false :=
  (recordVotingPowerTable_tip_failure sampleKeeper 5).2.1 (by decide)

/-- C10: writing a power for a registered validator key and reading it
back at the same height returns exactly the written value — the 8-byte
big-endian encoding round-trips for every `uint64` power, including 0. -/
theorem set_get_roundtrip (k : Keeper) (pk : ValidatorKey) (h p : Nat)
    (hreg : HasBTCValidator k pk = true) (hp : p < 2 ^ 64) :
    GetVotingPower (SetVotingPower k pk h p) pk h = p := by
  have hreg' : HasBTCValidator (SetVotingPower k pk h p) pk = true := hreg
  rw [GetVotingPower, if_pos hreg']
  show (match kvGet (kvSet k.votingPower (uint64ToBigEndian h ++ pk)
      (uint64ToBigEndian p)) (uint64ToBigEndian h ++ pk) with
    | none => 0
    | some powerBytes => if powerBytes = [] then 0 else bigEndianToUint64 powerBytes) = p
  rw [kvGet_kvSet_self]
  show (if uint64ToBigEndian p = [] then 0 else bigEndianToUint64 (uint64ToBigEndian p)) = p
  rw [if_neg (by simp [uint64ToBigEndian]), decode_enc]
  exact Nat.mod_eq_of_lt hp

/-- Witness for C10 at a concrete input, with power 0. -/
theorem set_get_roundtrip_witness :
    GetVotingPower (SetVotingPower sampleKeeper [1] 5 0) [1] 5 = 0 :=
  set_get_roundtrip sampleKeeper [1] 5 0 (by decide) (by decide)

/-- C3: after a run of the tally at height H on a keeper whose partition
for H is still empty (heights are never revisited), every entry stored
under H decodes to a strictly positive power, and the number of entries
under H is at most the configured `MaxActiveBtcValidators` cap. -/
theorem recordVotingPowerTable_positive_and_capped (k : Keeper) (H : Nat)
    (btcTip : Option Nat) (hfresh : heightEntries k.votingPower H = []) :
    (∀ e ∈ heightEntries (RecordVotingPowerTable k H btcTip).votingPower H,
        0 < bigEndianToUint64 e.2) ∧
      (heightEntries (RecordVotingPowerTable k H btcTip).votingPower H).length ≤
        k.maxActiveBtcValidators := by
  cases btcTip with
  | none =>
    constructor
    · intro e he
      rw [show RecordVotingPowerTable k H none = k from rfl, hfresh] at he
      exact absurd he (List.not_mem_nil _)
    · rw [show RecordVotingPowerTable k H none = k from rfl, hfresh]
      simp
  | some tip =>
    rw [recordVotingPowerTable_eq]
    by_cases hact : (activeBTCValsOf k tip).isEmpty
    · rw [if_pos hact]
      constructor
      · intro e he
        rw [hfresh] at he
        exact absurd he (List.not_mem_nil _)
      · rw [hfresh]
        simp
    · rw [if_neg hact]
      constructor
      · intro e he
        rcases mem_heightEntries_writeAll _ k he with h1 | ⟨v, hv, rfl⟩
        · rw [hfresh] at h1
          exact absurd h1 (List.not_mem_nil _)
        · have hsub := filterTopN_subset hv
          obtain ⟨hpos, hval, _⟩ := mem_activeBTCVals hsub
          show 0 < bigEndianToUint64 (uint64ToBigEndian v.votingPower)
          rw [decode_enc]
          have hlt : v.votingPower < 2 ^ 64 := by
            rw [hval]
            exact valPowerOf_lt k tip v.btcPk
          rw [Nat.mod_eq_of_lt hlt]
          exact hpos
      · have h1 := length_heightEntries_writeAll
          (FilterTopNBTCValidators (activeBTCValsOf k tip) k.maxActiveBtcValidators) k H H
        rw [hfresh] at h1
        simp only [List.length_nil, Nat.zero_add] at h1
        exact le_trans h1 (filterTopN_length _ _)

/-- Witness for C3 at a concrete input. -/
theorem recordVotingPowerTable_positive_and_capped_witness :
    (∀ e ∈ heightEntries (RecordVotingPowerTable sampleKeeper 5 (some 7)).votingPower 5,
        0 < bigEndianToUint64 e.2) ∧
      (heightEntries (RecordVotingPowerTable sampleKeeper 5 (some 7)).votingPower 5).length ≤
        sampleKeeper.maxActiveBtcValidators :=
  recordVotingPowerTable_positive_and_capped sampleKeeper 5 (some 7) (by decide)

/-- C7: a validator whose slashed flag is set in the registry when the
tally runs is never written into the snapshot at that height, regardless
of its delegated score. -/
theorem recordVotingPowerTable_excludes_slashed (k : Keeper) (pk : ValidatorKey)
    (H : Nat) (btcTip : Option Nat)
    (hnd : (k.validators.map Prod.fst).Nodup)
    (hsl : IsSlashed k pk = true)
    (hfresh : kvGet k.votingPower (uint64ToBigEndian H ++ pk) = none) :
    kvGet (RecordVotingPowerTable k H btcTip).votingPower
      (uint64ToBigEndian H ++ pk) = none := by
  have hrows : ∀ v ∈ k.validators, v.1 = pk → v.2 = true := by
    intro v hv hvpk
    rw [IsSlashed] at hsl
    cases hfind : k.validators.find? (fun w => w.1 == pk) with
    | none =>
      rw [hfind] at hsl
      simp at hsl
    | some w =>
      rw [hfind] at hsl
      have hw : w ∈ k.validators := List.mem_of_find?_eq_some hfind
      have hwpk : w.1 = pk := by
        have hp := List.find?_some hfind
        simpa using hp
      have hvw : v = w :=
        List.inj_on_of_nodup_map hnd hv hw (by rw [hvpk, hwpk])
      rw [hvw]
      exact hsl
  cases btcTip with
  | none => exact hfresh
  | some tip =>
    rw [recordVotingPowerTable_eq]
    by_cases hact : (activeBTCValsOf k tip).isEmpty
    · rw [if_pos hact]
      exact hfresh
    · rw [if_neg hact]
      have hno : ∀ v ∈ FilterTopNBTCValidators (activeBTCValsOf k tip)
          k.maxActiveBtcValidators, v.btcPk ≠ pk := by
        intro v hv hvpk
        obtain ⟨_, _, row, hrow, hrowpk, hrowflag⟩ := mem_activeBTCVals (filterTopN_subset hv)
        have hslr := hrows row hrow (by rw [hrowpk, hvpk])
        rw [hslr] at hrowflag
        exact absurd hrowflag (by decide)
      rw [kvGet_writeAll_not_written _ _ hno]
      exact hfresh

/-- Witness for C7 at a concrete input: the slashed validator `[2]` of
`sampleKeeper`. -/
theorem recordVotingPowerTable_excludes_slashed_witness :
    kvGet (RecordVotingPowerTable sampleKeeper 5 (some 7)).votingPower
      (uint64ToBigEndian 5 ++ [2]) = none :=
  recordVotingPowerTable_excludes_slashed sampleKeeper [2] 5 (some 7) (by decide) (by decide)
    (by decide)

/-- C9: a run of the tally at height H leaves every other height's
partition — and hence its `HasVotingPowerTable` and `GetVotingPowerTable`
views — unchanged. -/
theorem recordVotingPowerTable_frame (k : Keeper) (H H' : Nat) (btcTip : Option Nat)
    (hne : H % 2 ^ 64 ≠ H' % 2 ^ 64) :
    heightEntries (RecordVotingPowerTable k H btcTip).votingPower H' =
        heightEntries k.votingPower H' ∧
      HasVotingPowerTable (RecordVotingPowerTable k H btcTip) H' =
        HasVotingPowerTable k H' ∧
      GetVotingPowerTable (RecordVotingPowerTable k H btcTip) H' =
        GetVotingPowerTable k H' := by
  have hencne : uint64ToBigEndian H ≠ uint64ToBigEndian H' :=
    fun hc => hne (enc_eq_iff.mp hc)
  have hE : heightEntries (RecordVotingPowerTable k H btcTip).votingPower H' =
      heightEntries k.votingPower H' := by
    cases btcTip with
    | none => rfl
    | some tip =>
      rw [recordVotingPowerTable_eq]
      by_cases hact : (activeBTCValsOf k tip).isEmpty
      · rw [if_pos hact]
      · rw [if_neg hact]
        exact heightEntries_writeAll_ne _ k hencne
  refine ⟨hE, ?_, ?_⟩
  · simp only [HasVotingPowerTable, hE]
  · simp only [GetVotingPowerTable, hE]

/-- Witness for C9 at a concrete input. -/
theorem recordVotingPowerTable_frame_witness :
    heightEntries (RecordVotingPowerTable sampleKeeper 5 (some 7)).votingPower 6 =
      heightEntries sampleKeeper.votingPower 6 :=
  (recordVotingPowerTable_frame sampleKeeper 5 6 (some 7) (by decide)).1

/-- C6: `GetVotingPowerTable` returns the explicit absent marker exactly
when the height's partition is empty, and otherwise the full — never
empty — key-to-power mapping of all entries stored under the height. -/
theorem getVotingPowerTable_spec (k : Keeper) (H : Nat) :
    (GetVotingPowerTable k H = none ↔ HasVotingPowerTable k H = false) ∧
      ∀ m, GetVotingPowerTable k H = some m →
        m ≠ [] ∧ ∀ pk p, (pk, p) ∈ m ↔
          ∃ bz, (pk, bz) ∈ heightEntries k.votingPower H ∧ bigEndianToUint64 bz = p := by
  constructor
  · rw [hasVotingPowerTable_false_iff]
    simp only [GetVotingPowerTable]
    by_cases hE : heightEntries k.votingPower H = []
    · simp [hE]
    · simp [hE]
  · intro m hm
    simp only [GetVotingPowerTable] at hm
    by_cases hE : heightEntries k.votingPower H = []
    · rw [if_pos hE] at hm
      exact absurd hm (by simp)
    · rw [if_neg hE] at hm
      have hm' : m = (heightEntries k.votingPower H).map
          (fun e => (e.1, bigEndianToUint64 e.2)) := (Option.some_inj.mp hm).symm
      subst hm'
      constructor
      · intro hc
        exact hE (List.map_eq_nil_iff.mp hc)
      · intro pk p
        constructor
        · intro hmem
          obtain ⟨e, he, hfe⟩ := List.mem_map.mp hmem
          obtain ⟨a, b⟩ := e
          injection hfe with h1 h2
          exact ⟨b, h1 ▸ he, h2⟩
        · rintro ⟨bz, hmem, hdec⟩
          exact List.mem_map.mpr ⟨(pk, bz), hmem, by simp [hdec]⟩

/-- Witness for C6 at a concrete input: the height-5 partition of
`activatedKeeper`. -/
theorem getVotingPowerTable_spec_witness :
    ([([1], 7)] : List (ValidatorKey × Nat)) ≠ [] ∧
      ∀ pk p, ((pk, p) ∈ ([([1], 7)] : List (ValidatorKey × Nat))) ↔
        ∃ bz, (pk, bz) ∈ heightEntries activatedKeeper.votingPower 5 ∧
          bigEndianToUint64 bz = p :=
  (getVotingPowerTable_spec activatedKeeper 5).2 [([1], 7)] (by decide)

/-- C1: with a well-formed voting-power section, the activation query
returns the smallest height whose partition is non-empty, decoding only
the 8-byte height segment of the first stored raw key despite the
validator-key suffix; it signals the distinguished not-activated error
exactly when the section is empty; and `IsBTCStakingActivated` is true
iff an activated height exists. -/
theorem activatedHeight_spec (k : Keeper) (hwf : WFStore k.votingPower) :
    (∀ H, GetBTCStakingActivatedHeight k = some H →
        HasVotingPowerTable k H = true ∧ ∀ H', HasVotingPowerTable k H' = true → H ≤ H') ∧
      (GetBTCStakingActivatedHeight k = none ↔ k.votingPower = []) ∧
      (IsBTCStakingActivated k = true ↔ ∃ H, HasVotingPowerTable k H = true) ∧
      (∀ h pk v rest, h < 2 ^ 64 →
        k.votingPower = (uint64ToBigEndian h ++ pk, v) :: rest →
        GetBTCStakingActivatedHeight k = some h) := by
  obtain ⟨hsorted, hkeys⟩ := hwf
  cases hs : k.votingPower with
  | nil =>
    have hget : GetBTCStakingActivatedHeight k = none := by
      unfold GetBTCStakingActivatedHeight
      rw [hs]
    have hact : IsBTCStakingActivated k = false := by
      unfold IsBTCStakingActivated
      rw [hs]
      rfl
    have hnoH : ∀ H, HasVotingPowerTable k H = false := by
      intro H
      apply hasVotingPowerTable_false_iff.mpr
      rw [hs]
      rfl
    refine ⟨?_, ?_, ?_, ?_⟩
    · intro H hH
      rw [hget] at hH
      exact absurd hH (by simp)
    · exact ⟨fun _ => rfl, fun _ => hget⟩
    · rw [hact]
      constructor
      · intro hcontra
        exact absurd hcontra (by simp)
      · rintro ⟨H, hH⟩
        rw [hnoH H] at hH
        exact absurd hH (by simp)
    · intro h pk v rest2 _ heq
      exact absurd heq (by simp)
  | cons kv0 rest =>
    obtain ⟨h0, pk0, hlt0, hkey0⟩ :=
      hkeys kv0 (by rw [hs]; exact List.mem_cons_self _ _)
    have hget : GetBTCStakingActivatedHeight k = some h0 := by
      unfold GetBTCStakingActivatedHeight
      rw [hs]
      obtain ⟨key0, val0⟩ := kv0
      show some (bigEndianToUint64 key0) = some h0
      rw [show key0 = uint64ToBigEndian h0 ++ pk0 from hkey0, decode_enc_append,
        Nat.mod_eq_of_lt hlt0]
    have hhead : HasVotingPowerTable k h0 = true :=
      hasVotingPowerTable_iff.mpr
        ⟨kv0, by rw [hs]; exact List.mem_cons_self _ _,
          by rw [hkey0, take_eight_enc_append]⟩
    have hmin : ∀ H', HasVotingPowerTable k H' = true → h0 ≤ H' := by
      intro H' hH'
      obtain ⟨kv, hmem, hc⟩ := hasVotingPowerTable_iff.mp hH'
      obtain ⟨h1, pk1, hlt1, hkey1⟩ := hkeys kv hmem
      have henc1 : uint64ToBigEndian h1 = uint64ToBigEndian H' := by
        rw [hkey1, take_eight_enc_append] at hc
        exact hc
      have hmod1 : h1 % 2 ^ 64 = H' % 2 ^ 64 := enc_eq_iff.mp henc1
      have hh1H' : h1 ≤ H' := by omega
      have hh0h1 : h0 ≤ h1 := by
        rw [hs] at hmem
        rcases List.mem_cons.mp hmem with heq | hmem'
        · have hkk : uint64ToBigEndian h0 ++ pk0 = uint64ToBigEndian h1 ++ pk1 := by
            rw [← hkey0, ← hkey1, heq]
          have henc : uint64ToBigEndian h0 = uint64ToBigEndian h1 := by
            have h8 := congrArg (List.take 8) hkk
            rwa [take_eight_enc_append, take_eight_enc_append] at h8
          have hm0 := enc_eq_iff.mp henc
          omega
        · by_contra hcon
          push_neg at hcon
          have hlex1 : lexLt kv.1 kv0.1 = true := by
            rw [hkey0, hkey1]
            exact lexLt_append (by simp [uint64ToBigEndian])
              (lexLt_enc_of_lt (by omega)) pk1 pk0
          have hpair : List.Pairwise (fun a b : Bytes × Bytes => lexLt a.1 b.1 = true)
              (kv0 :: rest) := hs ▸ hsorted
          have hlex0 : lexLt kv0.1 kv.1 = true :=
            (List.pairwise_cons.mp hpair).1 kv hmem'
          have hloop : lexLt kv0.1 kv0.1 = true := lexLt_trans hlex0 hlex1
          rw [lexLt_irrefl] at hloop
          exact absurd hloop (by decide)
      omega
    refine ⟨?_, ?_, ?_, ?_⟩
    · intro H hH
      rw [hget] at hH
      obtain rfl := Option.some_inj.mp hH
      exact ⟨hhead, hmin⟩
    · constructor
      · intro hc
        rw [hget] at hc
        exact absurd hc (by simp)
      · intro hc
        exact absurd hc (by simp)
    · have hact : IsBTCStakingActivated k = true := by
        unfold IsBTCStakingActivated
        rw [hs]
        rfl
      rw [hact]
      exact ⟨fun _ => ⟨h0, hhead⟩, fun _ => rfl⟩
    · intro h pk v rest2 hlt heq
      injection heq with hkv hrest
      have hk1 : kv0.1 = uint64ToBigEndian h ++ pk := by
        rw [hkv]
      have henc : uint64ToBigEndian h0 = uint64ToBigEndian h := by
        have hkk := hkey0.symm.trans hk1
        have h8 := congrArg (List.take 8) hkk
        rwa [take_eight_enc_append, take_eight_enc_append] at h8
      have hmod := enc_eq_iff.mp henc
      have hh : h0 = h := by omega
      rw [hget, hh]

/-- Witness for C1 at a concrete input: `activatedKeeper`'s first stored
entry is at height 5, and no lower height has a snapshot. -/
theorem activatedHeight_spec_witness :
    HasVotingPowerTable activatedKeeper 5 = true ∧
      ∀ H', HasVotingPowerTable activatedKeeper H' = true → 5 ≤ H' := by
  have hwf : WFStore activatedKeeper.votingPower := by
    constructor
    · unfold SortedStore
      decide
    · intro kv hkv
      rcases List.mem_cons.mp hkv with rfl | hkv2
      · exact ⟨5, [1], by decide, rfl⟩
      · rcases List.mem_cons.mp hkv2 with rfl | hkv3
        · exact ⟨6, [2], by decide, rfl⟩
        · exact absurd hkv3 (List.not_mem_nil _)
  exact (activatedHeight_spec activatedKeeper hwf).1 5 (by decide)
